import Mathlib

/-!
# Verification of the tsk task/pomodoro terminal application core

Shallow embedding of `src/app.rs` (struct `Task`, `PomodoroTimer`, `App`) and
proofs about the task-tree navigation/mutation engine and the pomodoro state
machine.  Machine integers are modelled as `Nat`/`Int`; wall-clock instants and
`chrono::Duration` values are modelled in whole seconds as `Int` (all the
durations the program manipulates are whole numbers of seconds, and
`Duration::num_seconds` is the identity on such values).  Operations that can
panic in Rust (out-of-bounds indexing, byte-slicing a `&str` off a character
boundary, `usize` subtraction overflow) return `Option`, with `none` for the
panic.
-/

namespace Tsk

/-- Pomodoro phase (`PomodoroState` in app.rs). -/
inductive PomodoroState where
  | Work
  | ShortBreak
  | LongBreak
deriving DecidableEq, Repr

/-- Timer run-status (`TimerState` in app.rs). -/
inductive TimerState where
  | Stopped
  | Running
  | Paused
deriving DecidableEq, Repr

/-- `PomodoroTimer` from app.rs.  `duration` and `remaining` are whole seconds
(`chrono::Duration`); `start_time` is an optional wall-clock instant in
seconds (`Option<DateTime<Local>>`). -/
structure PomodoroTimer where
  state : PomodoroState
  timer_state : TimerState
  duration : Int
  remaining : Int
  cycles : Nat
  start_time : Option Int
deriving DecidableEq, Repr

namespace PomodoroTimer

/-- `PomodoroTimer::new`. -/
def new : PomodoroTimer :=
  { state := .Work
    timer_state := .Stopped
    duration := 25 * 60
    remaining := 25 * 60
    cycles := 0
    start_time := none }

/-- `PomodoroTimer::start`, with the current instant `now` passed explicitly
(the Rust code reads `Local::now()`). -/
def start (t : PomodoroTimer) (now : Int) : PomodoroTimer :=
  let t :=
    if t.timer_state = .Stopped ∨ t.timer_state = .Paused then
      { t with start_time := some now }
    else t
  { t with timer_state := .Running }

/-- `PomodoroTimer::pause`, with the current instant `now` passed explicitly. -/
def pause (t : PomodoroTimer) (now : Int) : PomodoroTimer :=
  if t.timer_state = .Running then
    let t :=
      match t.start_time with
      | some s => { t with remaining := t.remaining - (now - s) }
      | none => t
    { t with timer_state := .Paused, start_time := none }
  else t

/-- `PomodoroTimer::toggle`. -/
def toggle (t : PomodoroTimer) (now : Int) : PomodoroTimer :=
  match t.timer_state with
  | .Stopped | .Paused => t.start now
  | .Running => t.pause now

/-- `PomodoroTimer::sync_duration_with_state`. -/
def sync_duration_with_state (t : PomodoroTimer) : PomodoroTimer :=
  match t.state with
  | .Work => { t with duration := 25 * 60 }
  | .ShortBreak => { t with duration := 5 * 60 }
  | .LongBreak => { t with duration := 15 * 60 }

/-- `PomodoroTimer::sync_state_with_duration`.  `Duration::num_minutes`
truncates toward zero, hence `Int.tdiv`. -/
def sync_state_with_duration (t : PomodoroTimer) : PomodoroTimer :=
  let m := Int.tdiv t.duration 60
  if m = 25 then { t with state := .Work }
  else if m = 5 then { t with state := .ShortBreak }
  else if m = 15 then { t with state := .LongBreak }
  else t.sync_duration_with_state

/-- `PomodoroTimer::reset`. -/
def reset (t : PomodoroTimer) : PomodoroTimer :=
  let t := t.sync_duration_with_state
  let t := t.sync_state_with_duration
  { t with timer_state := .Stopped, start_time := none, remaining := t.duration }

/-- `PomodoroTimer::advance_cycle`. -/
def advance_cycle (t : PomodoroTimer) : PomodoroTimer :=
  let t :=
    match t.state with
    | .Work =>
      let c := t.cycles + 1
      if c % 4 = 0 then
        { t with cycles := c, state := .LongBreak, duration := 15 * 60 }
      else
        { t with cycles := c, state := .ShortBreak, duration := 5 * 60 }
    | .ShortBreak | .LongBreak => { t with state := .Work, duration := 25 * 60 }
  { t with remaining := t.duration, start_time := none }

/-- `PomodoroTimer::update`, with the current instant `now` passed
explicitly.  Returns the updated timer and the `bool` result. -/
def update (t : PomodoroTimer) (now : Int) : PomodoroTimer × Bool :=
  if t.timer_state ≠ .Running then (t, false)
  else
    match t.start_time with
    | some s =>
      if t.remaining ≤ now - s then
        (advance_cycle { t with remaining := 0, timer_state := .Stopped }, true)
      else (t, false)
    | none => (t, false)

/-- `PomodoroTimer::get_remaining_seconds`, with the current instant `now`
passed explicitly. -/
def get_remaining_seconds (t : PomodoroTimer) (now : Int) : Int :=
  if t.timer_state = .Running then
    match t.start_time with
    | some s => max (t.remaining - (now - s)) 0
    | none => t.remaining
  else t.remaining

end PomodoroTimer

/-!
## Rust strings

A Rust `String` is modelled as its list of Unicode scalar values
(`List Char`).  Byte positions are recovered through `Char.utf8Size`, so the
byte-oriented operations of the source (`str::len`, byte-range slicing) are
expressible, including the panic a slice off a character boundary raises.
-/

/-- `char::is_whitespace`: the Unicode `White_Space` code points. -/
def rustIsWhitespace (c : Char) : Bool :=
  [0x9, 0xA, 0xB, 0xC, 0xD, 0x20, 0x85, 0xA0, 0x1680,
   0x2000, 0x2001, 0x2002, 0x2003, 0x2004, 0x2005, 0x2006, 0x2007,
   0x2008, 0x2009, 0x200A, 0x2028, 0x2029, 0x202F, 0x205F, 0x3000].contains c.toNat

/-- `str::trim`: strip leading and trailing whitespace. -/
def rustTrim (s : List Char) : List Char :=
  ((s.dropWhile rustIsWhitespace).reverse.dropWhile rustIsWhitespace).reverse

/-- `str::len`: length in UTF-8 bytes. -/
def utf8Len (s : List Char) : Nat :=
  (s.map Char.utf8Size).sum

/-- `&s[..n]`: the prefix of `s` occupying exactly `n` UTF-8 bytes.  Returns
`none` when Rust would panic: `n` past the end of the string or not on a
character boundary. -/
def sliceBytes : List Char → Nat → Option (List Char)
  | _, 0 => some []
  | [], _ + 1 => none
  | c :: rest, n + 1 =>
    if c.utf8Size ≤ n + 1 then
      (sliceBytes rest (n + 1 - c.utf8Size)).map (fun p => c :: p)
    else none

/-- The title-limiting step shared by `add_task` and `add_subtask`:
`if trimmed.len() > 200 { &trimmed[..200] } else { trimmed }`. -/
def limitTitle (s : List Char) : Option (List Char) :=
  if utf8Len s > 200 then sliceBytes s 200 else some s

/-!
## Tasks and the pre-order path enumeration
-/

/-- `Task` from app.rs. -/
structure Task where
  id : Nat
  title : List Char
  completed : Bool
  subtasks : List Task
deriving Repr

/-- `Task::new`. -/
def Task.mkNew (id : Nat) (title : List Char) : Task :=
  { id := id, title := title, completed := false, subtasks := [] }

mutual

/-- `App::count_all_items`: number of nodes in the subtree rooted at `t`. -/
def countAllItems : Task → Nat
  | .mk _ _ _ subs => 1 + countSum subs

/-- Total node count of a forest. -/
def countSum : List Task → Nat
  | [] => 0
  | t :: ts => countAllItems t + countSum ts

end

mutual

/-- Pre-order list of the relative paths of all nodes in the subtree rooted
at `t`, the root itself first (as `[]`). -/
def nodePaths : Task → List (List Nat)
  | .mk _ _ _ subs => [] :: pathsFrom 0 subs

/-- Pre-order paths of all nodes of a forest, the first list element carrying
child-index `i`. -/
def pathsFrom : Nat → List Task → List (List Nat)
  | _, [] => []
  | i, t :: ts => (nodePaths t).map (fun p => i :: p) ++ pathsFrom (i + 1) ts

end

/-- Pre-order list of all selections `(root index, path)` of a forest,
root indices starting at `i`. -/
def selsFrom : Nat → List Task → List (Nat × List Nat)
  | _, [] => []
  | i, t :: ts => (nodePaths t).map (fun p => (i, p)) ++ selsFrom (i + 1) ts

/-- All selections of a forest in pre-order: the flat index of a node is its
position in this list. -/
def allSels (ts : List Task) : List (Nat × List Nat) :=
  selsFrom 0 ts

mutual

/-- `App::toggle_completion_recursive`: overwrite the completion flag of a
whole subtree. -/
def setCompletedAll (b : Bool) : Task → Task
  | .mk id title _ subs => .mk id title b (setCompletedAllList b subs)

/-- `setCompletedAll` mapped over a forest. -/
def setCompletedAllList (b : Bool) : List Task → List Task
  | [] => []
  | t :: ts => setCompletedAll b t :: setCompletedAllList b ts

end

/-!
## Flat-index navigation (`get_flat_index`, `find_item_at_flat_index`)
-/

/-- The path-walking part of `App::get_flat_index` inside one root task: the
offset (within the pre-order enumeration of `t`'s subtree) of the node at
`path`.  `none` models the panic of the out-of-bounds indexing
`current.subtasks[i]` / `current.subtasks[p]`. -/
def flatIndexPath (t : Task) : List Nat → Option Nat
  | [] => some 0
  | p :: rest =>
    if h : p < t.subtasks.length then
      (flatIndexPath t.subtasks[p] rest).map
        (fun r => countSum (t.subtasks.take p) + 1 + r)
    else none

/-- `App::get_flat_index` on the forest `ts`: pre-order flat index of the
node at `(task_idx, path)`.  `none` models the panics (`self.tasks[i]` with
`task_idx > len`, or an out-of-range path step). -/
def get_flat_index (ts : List Task) (task_idx : Nat) (path : List Nat) : Option Nat :=
  if task_idx > ts.length then none
  else
    match ts[task_idx]? with
    | some t => (flatIndexPath t path).map (fun r => countSum (ts.take task_idx) + r)
    | none => some (countSum (ts.take task_idx))

mutual

/-- `App::find_in_subtasks`: scan the descendants of `t` in pre-order,
decrementing `target`; returns the found path (if any) together with the
final value of the `&mut` counter. -/
def findInSubtasks (t : Task) (target : Nat) (path : List Nat) :
    Option (List Nat) × Nat :=
  findInSubtasksFrom t.subtasks 0 target path
termination_by sizeOf t
decreasing_by cases t; simp

/-- The loop body of `find_in_subtasks` over the remaining subtasks, `i` the
child index of the first one. -/
def findInSubtasksFrom : List Task → Nat → Nat → List Nat → Option (List Nat) × Nat
  | [], _, target, _ => (none, target)
  | s :: rest, i, target, path =>
    if target = 0 then (some (path ++ [i]), target)
    else
      match findInSubtasks s (target - 1) (path ++ [i]) with
      | (some p, t) => (some p, t)
      | (none, t) => findInSubtasksFrom rest (i + 1) t path
termination_by ts _ _ _ => sizeOf ts
decreasing_by all_goals simp <;> omega

end

/-- The loop of `App::find_item_at_flat_index` over the remaining root tasks,
`i` the index of the first one. -/
def findItemFrom : List Task → Nat → Nat → Option (Nat × List Nat)
  | [], _, _ => none
  | t :: rest, i, target =>
    if target = 0 then some (i, [])
    else
      match findInSubtasks t (target - 1) [] with
      | (some p, _) => some (i, p)
      | (none, tgt) => findItemFrom rest (i + 1) tgt

/-- `App::find_item_at_flat_index`. -/
def find_item_at_flat_index (ts : List Task) (target : Nat) : Option (Nat × List Nat) :=
  findItemFrom ts 0 target

/-!
## The `App` container and its task-tree operations

Only the fields the claims touch are modelled; the purely visual fields
(`input_mode`, `input_buffer`, `theme`, `theme_name`, `last_c_key_time`,
`menu_selection`, `save_notification_time`) never interact with the task tree,
the selection, the id counter or the timer, and are omitted.
-/

/-- `App` from app.rs (display-only fields omitted, see above). -/
structure App where
  tasks : List Task
  selected_index : Nat
  selected_path : List Nat
  pomodoro : PomodoroTimer
  next_task_id : Nat
deriving Repr

namespace App

/-- `App::new` (modelled fields). -/
def new : App :=
  { tasks := []
    selected_index := 0
    selected_path := []
    pomodoro := .new
    next_task_id := 1 }

/-- `App::validate_selected_index`. -/
def validate_selected_index (a : App) : App :=
  if a.tasks.isEmpty then
    { a with selected_index := 0, selected_path := [] }
  else if a.selected_index ≥ a.tasks.length then
    { a with selected_index := a.tasks.length - 1, selected_path := [] }
  else a

/-- The walk of `App::get_task_at_path` / `get_task_mut_at_path` inside one
root task. -/
def getAtPathIn : Task → List Nat → Option Task
  | t, [] => some t
  | t, i :: rest =>
    match t.subtasks[i]? with
    | some s => getAtPathIn s rest
    | none => none

/-- `App::get_task_at_path`: resolve `path` under the currently selected root
task. -/
def get_task_at_path (a : App) (path : List Nat) : Option Task :=
  match a.tasks[a.selected_index]? with
  | some t => getAtPathIn t path
  | none => none

/-- Functional counterpart of `App::get_task_mut_at_path` followed by an
in-place edit `f` of the resolved node: the rebuilt tree, or `none` when
resolution fails. -/
def modifyAtPathIn (f : Task → Task) : Task → List Nat → Option Task
  | t, [] => some (f t)
  | t, i :: rest =>
    match t.subtasks[i]? with
    | some s =>
      (modifyAtPathIn f s rest).map (fun s' => { t with subtasks := t.subtasks.set i s' })
    | none => none

/-- Apply `f` to the node resolved by `get_task_mut_at_path(path)`, returning
the new forest. -/
def modifyAtPath (a : App) (path : List Nat) (f : Task → Task) : Option (List Task) :=
  match a.tasks[a.selected_index]? with
  | some t => (modifyAtPathIn f t path).map (fun t' => a.tasks.set a.selected_index t')
  | none => none

/-- `App::add_task`.  `none` models the byte-slicing panic of
`&trimmed[..200]`. -/
def add_task (a : App) (title : List Char) : Option (App × Bool) :=
  let trimmed := rustTrim title
  if trimmed.isEmpty then some (a, false)
  else
    match limitTitle trimmed with
    | none => none
    | some limited =>
      let a' := { a with
        tasks := a.tasks ++ [Task.mkNew a.next_task_id limited]
        next_task_id := a.next_task_id + 1 }
      some (a'.validate_selected_index, true)

/-- `App::add_subtask` (the `_parent_id` argument is unused in the source).
`none` models the byte-slicing panic. -/
def add_subtask (a : App) (title : List Char) : Option (App × Bool) :=
  let trimmed := rustTrim title
  if trimmed.isEmpty then some (a, false)
  else if a.selected_path.length ≥ 4 then some (a, false)
  else
    match limitTitle trimmed with
    | none => none
    | some limited =>
      let new_id := a.next_task_id
      let a' := { a with next_task_id := a.next_task_id + 1 }
      match a'.modifyAtPath a'.selected_path
          (fun t => { t with subtasks := t.subtasks ++ [Task.mkNew new_id limited] }) with
      | some ts => some ({ a' with tasks := ts }, true)
      | none => some (a', false)

/-- `App::toggle_task_completion`. -/
def toggle_task_completion (a : App) : App :=
  match a.modifyAtPath a.selected_path (fun t => setCompletedAll (!t.completed) t) with
  | some ts => { a with tasks := ts }
  | none => a

/-- `App::move_selection_up`.  `none` models a panic inside
`get_flat_index`. -/
def move_selection_up (a : App) : Option App := do
  let cf ← get_flat_index a.tasks a.selected_index a.selected_path
  if cf > 0 then
    match find_item_at_flat_index a.tasks (cf - 1) with
    | some (i, p) => pure { a with selected_index := i, selected_path := p }
    | none => pure a
  else pure a

/-- `App::move_selection_down`.  Besides the `get_flat_index` panics, `none`
models the `usize` overflow of `total_items - 1` when the forest is empty
(a panic under Rust's overflow checks). -/
def move_selection_down (a : App) : Option App := do
  let cf ← get_flat_index a.tasks a.selected_index a.selected_path
  let total := countSum a.tasks
  if total = 0 then none
  else if cf < total - 1 then
    match find_item_at_flat_index a.tasks (cf + 1) with
    | some (i, p) => pure { a with selected_index := i, selected_path := p }
    | none => pure a
  else pure a

/-- `App::delete_selected_task`.  `none` models the `Vec::remove` panic when
`selected_index` is out of bounds. -/
def delete_selected_task (a : App) : Option App :=
  if a.selected_path = [] then
    if a.tasks.isEmpty then some a
    else if a.selected_index < a.tasks.length then
      some (validate_selected_index { a with tasks := a.tasks.eraseIdx a.selected_index })
    else none
  else
    let parent_path := a.selected_path.dropLast
    match a.selected_path.getLast? with
    | none => some a
    | some idx =>
      match a.get_task_at_path parent_path with
      | some parent =>
        if idx < parent.subtasks.length then
          let tasks' := (a.modifyAtPath parent_path
            (fun t => { t with subtasks := t.subtasks.eraseIdx idx })).getD a.tasks
          let newLen := parent.subtasks.length - 1
          let path' :=
            if idx ≥ newLen ∧ newLen ≠ 0 then parent_path ++ [newLen - 1]
            else if newLen = 0 then parent_path
            else parent_path
          some { a with tasks := tasks', selected_path := path' }
        else some a
      | none =>
        some (validate_selected_index { a with selected_path := [] })

/-- `App::clear_all_tasks`. -/
def clear_all_tasks (a : App) : App :=
  { a with tasks := [], selected_index := 0, selected_path := [] }

end App

/-!
## Persistence (`SavedState`, `load_state`)
-/

/-- `SavedState` from app.rs, as parsed from `state.json`. -/
structure SavedState where
  tasks : List Task
  pomodoro_cycles : Nat
  pomodoro_state : String
  pomodoro_timer_state : String
  pomodoro_remaining_seconds : Int
  next_task_id : Nat
  theme : Option String
deriving Repr

/-- Maximum id among the root tasks as computed by `load_state`:
`self.tasks.iter().map(|t| t.id).max().unwrap_or(0)`.  Note the source scans
only the top-level tasks, not their descendants. -/
def maxRootId (ts : List Task) : Nat :=
  ts.foldr (fun t m => max t.id m) 0

/-- `App::load_state` from a successfully parsed snapshot (the file I/O and
JSON decoding around it are outside the core; the theme restoration only
touches the display-only fields not modelled in `App`). -/
def App.load_state_from (a : App) (st : SavedState) : App :=
  let a := { a with tasks := st.tasks }
  let p := { a.pomodoro with cycles := st.pomodoro_cycles }
  let p := { p with state :=
    if st.pomodoro_state = "Work" then PomodoroState.Work
    else if st.pomodoro_state = "ShortBreak" then PomodoroState.ShortBreak
    else if st.pomodoro_state = "LongBreak" then PomodoroState.LongBreak
    else PomodoroState.Work }
  let p := { p with timer_state :=
    if st.pomodoro_timer_state = "Stopped" then TimerState.Stopped
    else if st.pomodoro_timer_state = "Running" then TimerState.Running
    else if st.pomodoro_timer_state = "Paused" then TimerState.Paused
    else TimerState.Stopped }
  let p :=
    if st.pomodoro_remaining_seconds ≥ 0 then
      { p with remaining := st.pomodoro_remaining_seconds }
    else p.reset
  let p :=
    let m := Int.tdiv p.remaining 60
    if m = 25 then { p with duration := 25 * 60, state := PomodoroState.Work }
    else if m = 5 then { p with duration := 5 * 60, state := PomodoroState.ShortBreak }
    else if m = 15 then { p with duration := 15 * 60, state := PomodoroState.LongBreak }
    else (p.sync_duration_with_state).sync_state_with_duration
  let a := { a with pomodoro := p }
  let a :=
    if st.next_task_id = 0 then
      { a with next_task_id := max 1 (maxRootId a.tasks + 1) }
    else
      { a with next_task_id := st.next_task_id }
  a.validate_selected_index

/-!
## Auxiliary definitions for the claims
-/

/-- The selection invariant of the spec: `(selected_index, selected_path)`
either resolves to an existing node, or the tree is empty and the selection
is `(0, [])`. -/
def App.selOk (a : App) : Prop :=
  (a.tasks = [] ∧ a.selected_index = 0 ∧ a.selected_path = []) ∨
  (a.get_task_at_path a.selected_path).isSome

/-- A title of 67 euro signs: 201 UTF-8 bytes (3 each), so the 200-byte
truncation point of `add_task`/`add_subtask` falls inside the 67th
character. -/
def euroTitle : List Char := List.replicate 67 '€'

/-- One root task with two subtasks, the first subtask selected. -/
def appTwoSubs : App :=
  { tasks := [Task.mk 1 ['a'] false [Task.mk 2 ['b'] false [], Task.mk 3 ['c'] false []]]
    selected_index := 0
    selected_path := [0]
    pomodoro := .new
    next_task_id := 4 }

/-- A chain of four nested tasks with the depth-3 node selected. -/
def appChain3 : App :=
  { tasks := [Task.mk 1 ['a'] false
      [Task.mk 2 ['b'] false [Task.mk 3 ['c'] false [Task.mk 4 ['d'] false []]]]]
    selected_index := 0
    selected_path := [0, 0, 0]
    pomodoro := .new
    next_task_id := 5 }

/-- A snapshot whose stored next-id (3) is positive but not greater than the
id 5 present in the tree. -/
def savedStale : SavedState :=
  { tasks := [Task.mk 5 ['a'] false []]
    pomodoro_cycles := 0
    pomodoro_state := "Work"
    pomodoro_timer_state := "Stopped"
    pomodoro_remaining_seconds := 1500
    next_task_id := 3
    theme := none }

/-!
## Basic structural lemmas
-/

/-- Induction over `Task` with the hypothesis available for every member of
the subtask list. -/
theorem Task.my_ind {motive : Task → Prop}
    (h : ∀ (id : Nat) (title : List Char) (c : Bool) (subs : List Task),
      (∀ s ∈ subs, motive s) → motive (Task.mk id title c subs)) :
    ∀ t, motive t
  | .mk id title c subs => h id title c subs (fun s _hs => Task.my_ind h s)
termination_by t => sizeOf t
decreasing_by
  simp only [Task.mk.sizeOf_spec]
  have := List.sizeOf_lt_of_mem ‹s ∈ subs›
  omega

theorem countAllItems_def (t : Task) : countAllItems t = 1 + countSum t.subtasks := by
  cases t
  rw [countAllItems]

theorem countAllItems_pos (t : Task) : 1 ≤ countAllItems t := by
  rw [countAllItems_def]
  omega

theorem nodePaths_def (t : Task) : nodePaths t = [] :: pathsFrom 0 t.subtasks := by
  cases t
  rw [nodePaths]

theorem nodePaths_length (t : Task) : (nodePaths t).length = countAllItems t := by
  induction t using Task.my_ind with
  | h id title c subs ihs =>
    have aux : ∀ (rest : List Task),
        (∀ s ∈ rest, (nodePaths s).length = countAllItems s) →
        ∀ i, (pathsFrom i rest).length = countSum rest := by
      intro rest
      induction rest with
      | nil => intro _ i; rw [pathsFrom, countSum]; rfl
      | cons s rest ih =>
        intro hmem i
        rw [pathsFrom, countSum]
        simp [List.length_append, hmem s (by simp),
          ih (fun x hx => hmem x (by simp [hx]))]
    rw [nodePaths, countAllItems, List.length_cons, aux subs ihs 0]
    omega

theorem pathsFrom_length (ts : List Task) (i : Nat) :
    (pathsFrom i ts).length = countSum ts := by
  induction ts generalizing i with
  | nil => rw [pathsFrom, countSum]; rfl
  | cons t rest ih =>
    rw [pathsFrom, countSum]
    simp [List.length_append, nodePaths_length, ih]

theorem selsFrom_length (ts : List Task) (i : Nat) :
    (selsFrom i ts).length = countSum ts := by
  induction ts generalizing i with
  | nil => rw [selsFrom, countSum]; rfl
  | cons t rest ih =>
    rw [selsFrom, countSum]
    simp [List.length_append, nodePaths_length, ih]

theorem allSels_length (ts : List Task) : (allSels ts).length = countSum ts :=
  selsFrom_length ts 0

/-- Every path produced by `pathsFrom` is nonempty (it starts with the
child index of the subtree it lies in). -/
theorem ne_nil_of_mem_pathsFrom :
    ∀ (ts : List Task) (i : Nat) (p : List Nat), p ∈ pathsFrom i ts → p ≠ [] := by
  intro ts
  induction ts with
  | nil => intro i p hp; rw [pathsFrom] at hp; cases hp
  | cons t rest ih =>
    intro i p hp
    rw [pathsFrom] at hp
    rcases List.mem_append.mp hp with h | h
    · obtain ⟨q, -, rfl⟩ := List.mem_map.mp h
      simp
    · exact ih (i + 1) p h

/-!
## The pre-order enumeration versus the flat-index functions
-/

/-- Decomposition of an indexed element of `pathsFrom`: the entry at
position `k` beginning with child index `q` lies in the `q - i`-th subtree,
at the position `k'` of its own pre-order enumeration, with `k` offset by the
nodes of the earlier subtrees. -/
theorem pathsFrom_getElem_cons :
    ∀ (ts : List Task) (i k q : Nat) (rest : List Nat),
      (pathsFrom i ts)[k]? = some (q :: rest) →
      i ≤ q ∧ q - i < ts.length ∧ ∃ root k', ts[q - i]? = some root ∧
        (nodePaths root)[k']? = some rest ∧
        k = countSum (ts.take (q - i)) + k' := by
  intro ts
  induction ts with
  | nil => intro i k q rest h; rw [pathsFrom] at h; simp at h
  | cons t ts ih =>
    intro i k q rest hk
    rw [pathsFrom] at hk
    by_cases hlt : k < (nodePaths t).length
    · rw [List.getElem?_append_left (by simpa using hlt), List.getElem?_map] at hk
      cases hnp : (nodePaths t)[k]? with
      | none => rw [hnp] at hk; simp at hk
      | some p =>
        rw [hnp] at hk
        simp only [Option.map_some', Option.some.injEq, List.cons.injEq] at hk
        obtain ⟨rfl, rfl⟩ := hk
        refine ⟨le_refl _, by simp, t, k, ?_, hnp, ?_⟩
        · simp
        · simp [countSum]
    · push_neg at hlt
      rw [List.getElem?_append_right (by simpa using hlt), List.length_map] at hk
      obtain ⟨hq, hlen, root, k', hroot, hrest, hoff⟩ := ih (i + 1) _ q rest hk
      have hcnt := nodePaths_length t
      have hq' : i ≤ q := by omega
      refine ⟨hq', by simp; omega, root, k', ?_, hrest, ?_⟩
      · obtain ⟨j, hj⟩ : ∃ j, q - i = j + 1 := ⟨q - i - 1, by omega⟩
        rw [hj, List.getElem?_cons_succ]
        have : j = q - (i + 1) := by omega
        rw [this]
        exact hroot
      · obtain ⟨j, hj⟩ : ∃ j, q - i = j + 1 := ⟨q - i - 1, by omega⟩
        rw [hj, List.take_succ_cons, countSum]
        have hjj : j = q - (i + 1) := by omega
        rw [hjj]
        rw [nodePaths_length] at hlt
        omega

/-- The analogous decomposition for `selsFrom`. -/
theorem selsFrom_getElem :
    ∀ (ts : List Task) (i0 k i : Nat) (p : List Nat),
      (selsFrom i0 ts)[k]? = some (i, p) →
      i0 ≤ i ∧ i - i0 < ts.length ∧ ∃ root k', ts[i - i0]? = some root ∧
        (nodePaths root)[k']? = some p ∧
        k = countSum (ts.take (i - i0)) + k' := by
  intro ts
  induction ts with
  | nil => intro i0 k i p h; rw [selsFrom] at h; simp at h
  | cons t ts ih =>
    intro i0 k i p hk
    rw [selsFrom] at hk
    by_cases hlt : k < (nodePaths t).length
    · rw [List.getElem?_append_left (by simpa using hlt), List.getElem?_map] at hk
      cases hnp : (nodePaths t)[k]? with
      | none => rw [hnp] at hk; simp at hk
      | some p' =>
        rw [hnp] at hk
        simp only [Option.map_some', Option.some.injEq, Prod.mk.injEq] at hk
        obtain ⟨rfl, rfl⟩ := hk
        refine ⟨le_refl _, by simp, t, k, ?_, hnp, ?_⟩
        · simp
        · simp [countSum]
    · push_neg at hlt
      rw [List.getElem?_append_right (by simpa using hlt), List.length_map] at hk
      obtain ⟨hq, hlen, root, k', hroot, hrest, hoff⟩ := ih (i0 + 1) _ i p hk
      have hcnt := nodePaths_length t
      refine ⟨by omega, by simp; omega, root, k', ?_, hrest, ?_⟩
      · obtain ⟨j, hj⟩ : ∃ j, i - i0 = j + 1 := ⟨i - i0 - 1, by omega⟩
        rw [hj, List.getElem?_cons_succ]
        have : j = i - (i0 + 1) := by omega
        rw [this]
        exact hroot
      · obtain ⟨j, hj⟩ : ∃ j, i - i0 = j + 1 := ⟨i - i0 - 1, by omega⟩
        rw [hj, List.take_succ_cons, countSum]
        have hjj : j = i - (i0 + 1) := by omega
        rw [hjj]
        rw [nodePaths_length] at hlt
        omega

/-- The flat index computed by `get_flat_index`'s inner walk agrees with the
position in the pre-order enumeration `nodePaths`. -/
theorem flatIndexPath_of_nodePaths :
    ∀ (p : List Nat) (t : Task) (k : Nat),
      (nodePaths t)[k]? = some p → flatIndexPath t p = some k := by
  intro p
  induction p with
  | nil =>
    intro t k hk
    rw [nodePaths_def] at hk
    cases k with
    | zero => rfl
    | succ j =>
      rw [List.getElem?_cons_succ] at hk
      exact absurd rfl (ne_nil_of_mem_pathsFrom _ _ _ (List.getElem?_mem hk))
  | cons q rest ih =>
    intro t k hk
    rw [nodePaths_def] at hk
    cases k with
    | zero => simp at hk
    | succ j =>
      rw [List.getElem?_cons_succ] at hk
      obtain ⟨-, hlen, root, k', hroot, hrest, hoff⟩ :=
        pathsFrom_getElem_cons _ 0 j q rest hk
      simp only [Nat.sub_zero] at hlen hroot hoff
      obtain ⟨hlt, rfl⟩ := List.getElem?_eq_some_iff.mp hroot
      rw [flatIndexPath, dif_pos hlt, ih _ k' hrest]
      simp only [Option.map_some', Option.some.injEq]
      omega

/-- The flat index of the `k`-th selection of the pre-order enumeration is
`k`. -/
theorem get_flat_index_of_allSels (ts : List Task) (k i : Nat) (p : List Nat)
    (h : (allSels ts)[k]? = some (i, p)) : get_flat_index ts i p = some k := by
  obtain ⟨-, hlen, root, k', hroot, hp, hoff⟩ := selsFrom_getElem ts 0 k i p h
  simp only [Nat.sub_zero] at hlen hroot hoff
  rw [get_flat_index, if_neg (by omega), hroot]
  show (flatIndexPath root p).map (fun r => countSum (ts.take i) + r) = some k
  rw [flatIndexPath_of_nodePaths p root k' hp]
  simp only [Option.map_some', Option.some.injEq]
  omega

/-- The counter-threading scan `findInSubtasksFrom` finds exactly the
`target`-th entry of `pathsFrom` (appended to the accumulated prefix), and
when the target lies beyond the subtree it returns `none` with the counter
decreased by the number of nodes scanned.  Stated with the subtree behaviour
of the members as a hypothesis; discharged below by induction on the tree. -/
theorem findInSubtasksFrom_spec (ts : List Task)
    (H : ∀ s ∈ ts, ∀ (target : Nat) (path : List Nat),
      (∀ p, (pathsFrom 0 s.subtasks)[target]? = some p →
        (findInSubtasks s target path).1 = some (path ++ p)) ∧
      (countSum s.subtasks ≤ target →
        findInSubtasks s target path = (none, target - countSum s.subtasks))) :
    ∀ (i target : Nat) (path : List Nat),
      (∀ p, (pathsFrom i ts)[target]? = some p →
        (findInSubtasksFrom ts i target path).1 = some (path ++ p)) ∧
      (countSum ts ≤ target →
        findInSubtasksFrom ts i target path = (none, target - countSum ts)) := by
  induction ts with
  | nil =>
    intro i target path
    constructor
    · intro p hp; rw [pathsFrom] at hp; simp at hp
    · intro h; rw [findInSubtasksFrom, countSum]; simp
  | cons t rest ih =>
    intro i target path
    have Ht := H t (by simp)
    have ih' := ih (fun s hs => H s (by simp [hs]))
    have hcnt := nodePaths_length t
    have hcai := countAllItems_def t
    constructor
    · intro p hp
      rw [pathsFrom] at hp
      rw [findInSubtasksFrom]
      by_cases h0 : target = 0
      · subst h0
        rw [nodePaths_def] at hp
        simp only [List.map_cons, List.cons_append, List.getElem?_cons_zero,
          Option.some.injEq] at hp
        rw [if_pos rfl]
        simp [hp]
      · rw [if_neg h0]
        obtain ⟨tg, rfl⟩ : ∃ tg, target = tg + 1 := ⟨target - 1, by omega⟩
        simp only [Nat.add_sub_cancel]
        by_cases hlt : tg < countSum t.subtasks
        · rw [List.getElem?_append_left (by simp only [List.length_map]; omega),
            List.getElem?_map, nodePaths_def, List.getElem?_cons_succ] at hp
          cases hq : (pathsFrom 0 t.subtasks)[tg]? with
          | none => rw [hq] at hp; simp at hp
          | some p0 =>
            rw [hq] at hp
            simp only [Option.map_some', Option.some.injEq] at hp
            have h1 := (Ht tg (path ++ [i])).1 p0 hq
            cases hfs : findInSubtasks t tg (path ++ [i]) with
            | mk o cnt =>
              rw [hfs] at h1
              simp only at h1
              subst h1
              simp [← hp]
        · have h2 := (Ht tg (path ++ [i])).2 (by omega)
          rw [List.getElem?_append_right (by simp only [List.length_map]; omega),
            List.length_map] at hp
          have hidx : tg + 1 - (nodePaths t).length = tg - countSum t.subtasks := by
            omega
          rw [hidx] at hp
          rw [h2]
          exact (ih' (i + 1) (tg - countSum t.subtasks) path).1 p hp
    · intro hle
      rw [countSum] at hle
      rw [findInSubtasksFrom]
      have h0 : target ≠ 0 := by have := countAllItems_pos t; omega
      rw [if_neg h0]
      obtain ⟨tg, rfl⟩ : ∃ tg, target = tg + 1 := ⟨target - 1, by omega⟩
      simp only [Nat.add_sub_cancel]
      have h2 := (Ht tg (path ++ [i])).2 (by omega)
      rw [h2]
      show findInSubtasksFrom rest (i + 1) (tg - countSum t.subtasks) path =
        (none, tg + 1 - countSum (t :: rest))
      have h3 := (ih' (i + 1) (tg - countSum t.subtasks) path).2 (by omega)
      rw [h3, countSum]
      have harith : tg - countSum t.subtasks - countSum rest =
          tg + 1 - (countAllItems t + countSum rest) := by omega
      rw [harith]

/-- The subtree behaviour of `findInSubtasks` against the pre-order
enumeration, by induction on the tree. -/
theorem findInSubtasks_spec (t : Task) :
    ∀ (target : Nat) (path : List Nat),
      (∀ p, (pathsFrom 0 t.subtasks)[target]? = some p →
        (findInSubtasks t target path).1 = some (path ++ p)) ∧
      (countSum t.subtasks ≤ target →
        findInSubtasks t target path = (none, target - countSum t.subtasks)) := by
  induction t using Task.my_ind with
  | h id title c subs ihs =>
    intro target path
    have h := findInSubtasksFrom_spec subs ihs 0 target path
    constructor
    · intro p hp
      rw [findInSubtasks]
      exact h.1 p hp
    · intro hle
      rw [findInSubtasks]
      exact h.2 hle

/-- The root-level scan `findItemFrom` finds exactly the `target`-th entry
of `selsFrom`, and fails when the target is at least the total node count. -/
theorem findItemFrom_spec (ts : List Task) :
    ∀ i target : Nat,
      (∀ s, (selsFrom i ts)[target]? = some s → findItemFrom ts i target = some s) ∧
      (countSum ts ≤ target → findItemFrom ts i target = none) := by
  induction ts with
  | nil =>
    intro i target
    constructor
    · intro s hs; rw [selsFrom] at hs; simp at hs
    · intro h; rw [findItemFrom]
  | cons t rest ih =>
    intro i target
    have hcnt := nodePaths_length t
    have hcai := countAllItems_def t
    constructor
    · intro s hs
      rw [selsFrom] at hs
      rw [findItemFrom]
      by_cases h0 : target = 0
      · subst h0
        rw [nodePaths_def] at hs
        simp only [List.map_cons, List.cons_append, List.getElem?_cons_zero,
          Option.some.injEq] at hs
        rw [if_pos rfl, ← hs]
      · rw [if_neg h0]
        obtain ⟨tg, rfl⟩ : ∃ tg, target = tg + 1 := ⟨target - 1, by omega⟩
        simp only [Nat.add_sub_cancel]
        by_cases hlt : tg < countSum t.subtasks
        · rw [List.getElem?_append_left (by simp only [List.length_map]; omega),
            List.getElem?_map, nodePaths_def, List.getElem?_cons_succ] at hs
          cases hq : (pathsFrom 0 t.subtasks)[tg]? with
          | none => rw [hq] at hs; simp at hs
          | some p0 =>
            rw [hq] at hs
            simp only [Option.map_some', Option.some.injEq] at hs
            have h1 := (findInSubtasks_spec t tg []).1 p0 hq
            cases hfs : findInSubtasks t tg [] with
            | mk o cnt =>
              rw [hfs] at h1
              simp only at h1
              subst h1
              simp [← hs]
        · have h2 := (findInSubtasks_spec t tg []).2 (by omega)
          rw [List.getElem?_append_right (by simp only [List.length_map]; omega),
            List.length_map] at hs
          have hidx : tg + 1 - (nodePaths t).length = tg - countSum t.subtasks := by
            omega
          rw [hidx] at hs
          rw [h2]
          exact (ih (i + 1) (tg - countSum t.subtasks)).1 s hs
    · intro hle
      rw [countSum] at hle
      rw [findItemFrom, if_neg (by have := countAllItems_pos t; omega)]
      obtain ⟨tg, rfl⟩ : ∃ tg, target = tg + 1 := ⟨target - 1, by omega⟩
      simp only [Nat.add_sub_cancel]
      rw [(findInSubtasks_spec t tg []).2 (by omega)]
      exact (ih (i + 1) (tg - countSum t.subtasks)).2 (by omega)

/-- `find_item_at_flat_index` returns the `k`-th selection of the pre-order
enumeration. -/
theorem find_item_spec (ts : List Task) (k : Nat) (s : Nat × List Nat)
    (h : (allSels ts)[k]? = some s) : find_item_at_flat_index ts k = some s := by
  rw [find_item_at_flat_index]
  exact (findItemFrom_spec ts 0 k).1 s h

/-- Claim C2, as stated, is false: `get_remaining_seconds` does not clamp in
the `Paused` branch, so a reachable state — start the fresh timer, then pause
it 1600 s later, 100 s after the 1500 s of work time ran out — returns the
negative value −100. -/
theorem claim2_counterexample :
    PomodoroTimer.get_remaining_seconds ((PomodoroTimer.new.start 0).pause 1600) 1600 = -100 ∧
    ((PomodoroTimer.new.start 0).pause 1600).timer_state = TimerState.Paused ∧
    ¬ 0 ≤ PomodoroTimer.get_remaining_seconds ((PomodoroTimer.new.start 0).pause 1600) 1600 := by
  decide

/-- Claim C2, amended: while Running with an anchor, `get_remaining_seconds`
returns max(0, remaining − (now − anchor)) and is never negative; while
Stopped or Paused — or Running without an anchor, reachable by loading a
snapshot saved as Running — it returns the stored remaining verbatim, which
can be negative after a pause whose elapsed time exceeded the remaining
time (`pause` subtracts without clamping). -/
theorem claim2_remaining_seconds (t : PomodoroTimer) (now : Int) :
    (∀ s, t.timer_state = .Running → t.start_time = some s →
      t.get_remaining_seconds now = max (t.remaining - (now - s)) 0 ∧
      0 ≤ t.get_remaining_seconds now) ∧
    (t.timer_state ≠ .Running → t.get_remaining_seconds now = t.remaining) ∧
    (t.timer_state = .Running → t.start_time = none →
      t.get_remaining_seconds now = t.remaining) ∧
    (∀ s, t.timer_state = .Running → t.start_time = some s →
      (t.pause now).remaining = t.remaining - (now - s) ∧
      (t.pause now).timer_state = .Paused ∧
      (t.pause now).start_time = none) := by
  refine ⟨fun s hr hs => ?_, fun hr => ?_, fun hr hn => ?_, fun s hr hs => ?_⟩ <;>
    simp [PomodoroTimer.get_remaining_seconds, PomodoroTimer.pause, hr, *]

/-- Witness for `claim2_remaining_seconds` at a concrete running timer. -/
theorem claim2_remaining_seconds_witness :
    PomodoroTimer.get_remaining_seconds (PomodoroTimer.new.start 0) 100 =
      max (25 * 60 - (100 - 0)) 0 ∧
    0 ≤ PomodoroTimer.get_remaining_seconds (PomodoroTimer.new.start 0) 100 := by
  have h := (claim2_remaining_seconds (PomodoroTimer.new.start 0) 100).1 0 (by decide) (by decide)
  exact ⟨h.1, h.2⟩

/-- Claim C9: `advance_cycle` increments the cycle counter on leaving Work,
entering LongBreak (15 min) when the new count is a multiple of 4 and
ShortBreak (5 min) otherwise; from either break it re-enters Work (25 min);
remaining is reset to the new duration and the anchor cleared. -/
theorem claim9_advance_cycle (t : PomodoroTimer) :
    t.advance_cycle.remaining = t.advance_cycle.duration ∧
    t.advance_cycle.start_time = none ∧
    (t.state = .Work →
      t.advance_cycle.cycles = t.cycles + 1 ∧
      ((t.cycles + 1) % 4 = 0 →
        t.advance_cycle.state = .LongBreak ∧ t.advance_cycle.duration = 15 * 60) ∧
      ((t.cycles + 1) % 4 ≠ 0 →
        t.advance_cycle.state = .ShortBreak ∧ t.advance_cycle.duration = 5 * 60)) ∧
    (t.state = .ShortBreak ∨ t.state = .LongBreak →
      t.advance_cycle.state = .Work ∧ t.advance_cycle.duration = 25 * 60 ∧
      t.advance_cycle.cycles = t.cycles) := by
  obtain ⟨s, ts, d, r, c, st⟩ := t
  cases s
  all_goals simp [PomodoroTimer.advance_cycle]
  all_goals try (split <;> simp_all)

/-- Witness for `claim9_advance_cycle`: the two cycle examples from the spec,
from cycles=3 in Work to cycles=4/LongBreak/15 min and from cycles=2 in Work
to cycles=3/ShortBreak/5 min. -/
theorem claim9_advance_cycle_witness :
    (PomodoroTimer.advance_cycle { PomodoroTimer.new with cycles := 3 }).cycles = 4 ∧
    (PomodoroTimer.advance_cycle { PomodoroTimer.new with cycles := 3 }).state =
      PomodoroState.LongBreak ∧
    (PomodoroTimer.advance_cycle { PomodoroTimer.new with cycles := 3 }).duration = 15 * 60 ∧
    (PomodoroTimer.advance_cycle { PomodoroTimer.new with cycles := 2 }).cycles = 3 ∧
    (PomodoroTimer.advance_cycle { PomodoroTimer.new with cycles := 2 }).state =
      PomodoroState.ShortBreak ∧
    (PomodoroTimer.advance_cycle { PomodoroTimer.new with cycles := 2 }).duration = 5 * 60 := by
  have h3 := (claim9_advance_cycle { PomodoroTimer.new with cycles := 3 }).2.2.1 rfl
  have h2 := (claim9_advance_cycle { PomodoroTimer.new with cycles := 2 }).2.2.1 rfl
  refine ⟨h3.1, (h3.2.1 (by decide)).1, (h3.2.1 (by decide)).2,
    h2.1, (h2.2.2 (by decide)).1, (h2.2.2 (by decide)).2⟩


/-- Claim C8: from any valid selection — the `k`-th node of the pre-order
depth-first enumeration — that is not at the last flat position,
`move_selection_down` followed by `move_selection_up` restores the original
selection exactly; symmetrically, from any position other than the first,
`move_selection_up` followed by `move_selection_down` restores it. -/
theorem claim8_round_trip (a : App) (k : Nat)
    (hsel : (allSels a.tasks)[k]? = some (a.selected_index, a.selected_path)) :
    (k + 1 < countSum a.tasks →
      a.move_selection_down.bind App.move_selection_up = some a) ∧
    (0 < k → a.move_selection_up.bind App.move_selection_down = some a) := by
  obtain ⟨tasks, si, sp, pom, nid⟩ := a
  simp only at hsel
  have hk : k < countSum tasks := by
    have := (List.getElem?_eq_some_iff.mp hsel).1
    rwa [allSels_length] at this
  have hflat : get_flat_index tasks si sp = some k :=
    get_flat_index_of_allSels _ k _ _ hsel
  have hfind0 := find_item_spec tasks k (si, sp) hsel
  constructor
  · intro hlast
    simp only at hlast
    obtain ⟨s', hs'⟩ : ∃ s', (allSels tasks)[k + 1]? = some s' := by
      have hlt : k + 1 < (allSels tasks).length := by rwa [allSels_length]
      exact ⟨(allSels tasks).get ⟨k + 1, hlt⟩, by simp [List.getElem?_eq_getElem hlt]⟩
    obtain ⟨i', p'⟩ := s'
    have hfind := find_item_spec tasks (k + 1) _ hs'
    have hflat' : get_flat_index tasks i' p' = some (k + 1) :=
      get_flat_index_of_allSels _ (k + 1) _ _ hs'
    rw [App.move_selection_down]
    simp only [hflat, Option.bind_eq_bind, Option.some_bind]
    rw [if_neg (by omega), if_pos (by omega), hfind]
    simp only [Option.pure_def, Option.some_bind]
    rw [App.move_selection_up]
    simp only [hflat', Option.bind_eq_bind, Option.some_bind]
    rw [if_pos (by omega)]
    simp only [Nat.add_sub_cancel]
    rw [hfind0]
    rfl
  · intro hpos
    obtain ⟨s', hs'⟩ : ∃ s', (allSels tasks)[k - 1]? = some s' := by
      have hlt : k - 1 < (allSels tasks).length := by rw [allSels_length]; omega
      exact ⟨(allSels tasks).get ⟨k - 1, hlt⟩, by simp [List.getElem?_eq_getElem hlt]⟩
    obtain ⟨i', p'⟩ := s'
    have hfind := find_item_spec tasks (k - 1) _ hs'
    have hflat' : get_flat_index tasks i' p' = some (k - 1) :=
      get_flat_index_of_allSels _ (k - 1) _ _ hs'
    rw [App.move_selection_up]
    simp only [hflat, Option.bind_eq_bind, Option.some_bind]
    rw [if_pos (by omega), hfind]
    simp only [Option.pure_def, Option.some_bind]
    rw [App.move_selection_down]
    simp only [hflat', Option.bind_eq_bind, Option.some_bind]
    rw [if_neg (by omega), if_pos (by omega)]
    have : k - 1 + 1 = k := by omega
    rw [this, hfind0]
    rfl

/-- Witness for `claim8_round_trip` at a concrete tree (one root, two
subtasks) with the first subtask selected: flat position 1 of 3, so both
round trips apply. -/
theorem claim8_round_trip_witness :
    (App.move_selection_down appTwoSubs).bind App.move_selection_up = some appTwoSubs ∧
    (App.move_selection_up appTwoSubs).bind App.move_selection_down = some appTwoSubs := by
  have hsel : (allSels appTwoSubs.tasks)[1]? =
      some (appTwoSubs.selected_index, appTwoSubs.selected_path) := by
    simp [appTwoSubs, allSels, selsFrom, nodePaths, pathsFrom]
  have h := claim8_round_trip appTwoSubs 1 hsel
  exact ⟨h.1 (by simp [appTwoSubs, countSum, countAllItems]), h.2 (by omega)⟩

/-- Claim C7 fails on `move_selection_down`: on the empty tree
`total_items` is 0 and the Rust guard computes `total_items - 1` on `usize`,
an arithmetic overflow (a panic under Rust's overflow checks, a wrap to
2^64 − 1 without them), modelled here as `none`; the claim asserts the bound
computation is well-defined and the call a panic-free no-op.
`move_selection_up` on the empty tree is indeed a no-op. -/
theorem claim7_empty_tree_navigation :
    App.move_selection_down App.new = none ∧
    App.move_selection_up App.new = some App.new := by
  constructor <;> rfl

/-- Editing the node resolved by a path succeeds exactly when resolution
succeeds, and the edited tree resolves the same path to the edited node. -/
theorem modifyAtPathIn_spec (f : Task → Task) :
    ∀ (p : List Nat) (t parent : Task), App.getAtPathIn t p = some parent →
      ∃ t', App.modifyAtPathIn f t p = some t' ∧
        App.getAtPathIn t' p = some (f parent) := by
  intro p
  induction p with
  | nil =>
    intro t parent h
    rw [App.getAtPathIn, Option.some.injEq] at h
    subst h
    exact ⟨f t, rfl, rfl⟩
  | cons i rest ih =>
    intro t parent h
    cases hsub : t.subtasks[i]? with
    | none => rw [App.getAtPathIn, hsub] at h; exact absurd h (by simp)
    | some s =>
      simp only [App.getAtPathIn, hsub] at h
      obtain ⟨s2, hmod, hget⟩ := ih s parent h
      refine ⟨{ t with subtasks := t.subtasks.set i s2 }, ?_, ?_⟩
      · simp only [App.modifyAtPathIn, hsub, hmod, Option.map_some']
      · have hi : i < t.subtasks.length := (List.getElem?_eq_some_iff.mp hsub).1
        rw [App.getAtPathIn]
        show (match (t.subtasks.set i s2)[i]? with
          | some s => App.getAtPathIn s rest
          | none => none) = some (f parent)
        rw [List.getElem?_set_self (by simpa using hi)]
        exact hget

/-- `modifyAtPathIn` fails exactly when resolution fails. -/
theorem modifyAtPathIn_none (f : Task → Task) :
    ∀ (p : List Nat) (t : Task), App.getAtPathIn t p = none →
      App.modifyAtPathIn f t p = none := by
  intro p
  induction p with
  | nil => intro t h; rw [App.getAtPathIn] at h; cases h
  | cons i rest ih =>
    intro t h
    cases hsub : t.subtasks[i]? with
    | none => rw [App.modifyAtPathIn, hsub]
    | some s =>
      simp only [App.getAtPathIn, hsub] at h
      simp only [App.modifyAtPathIn, hsub, ih s h, Option.map_none']

/-- App-level version of `modifyAtPathIn_spec`: the modified forest exists
and resolves the same selection to the edited node. -/
theorem modifyAtPath_spec (a : App) (p : List Nat) (f : Task → Task)
    (parent : Task) (h : a.get_task_at_path p = some parent) :
    ∃ ts, a.modifyAtPath p f = some ts ∧
      App.get_task_at_path { a with tasks := ts } p = some (f parent) := by
  cases hroot : a.tasks[a.selected_index]? with
  | none => rw [App.get_task_at_path, hroot] at h; cases h
  | some root =>
    simp only [App.get_task_at_path, hroot] at h
    obtain ⟨t2, hmod, hget⟩ := modifyAtPathIn_spec f p root parent h
    have hi : a.selected_index < a.tasks.length :=
      (List.getElem?_eq_some_iff.mp hroot).1
    refine ⟨a.tasks.set a.selected_index t2, ?_, ?_⟩
    · simp only [App.modifyAtPath, hroot, hmod, Option.map_some']
    · rw [App.get_task_at_path]
      show (match (a.tasks.set a.selected_index t2)[a.selected_index]? with
        | some t => App.getAtPathIn t p
        | none => none) = some (f parent)
      rw [List.getElem?_set_self (by simpa using hi)]
      exact hget

/-- App-level failure: if the selection path does not resolve, `modifyAtPath`
returns `none`. -/
theorem modifyAtPath_none (a : App) (p : List Nat) (f : Task → Task)
    (h : a.get_task_at_path p = none) : a.modifyAtPath p f = none := by
  cases hroot : a.tasks[a.selected_index]? with
  | none => rw [App.modifyAtPath, hroot]
  | some root =>
    simp only [App.get_task_at_path, hroot] at h
    simp only [App.modifyAtPath, hroot, modifyAtPathIn_none f p root h, Option.map_none']

/-- Claim C4 fails in the code: `add_task` measures the trimmed title in
UTF-8 bytes (`str::len`) and truncates with the byte slice `&trimmed[..200]`,
which panics when byte 200 is not a character boundary.  A title of 67 euro
signs (3 bytes each, 201 bytes, 67 ≤ 200 characters) panics — modelled as
`none` — where the claim promises a successful insertion storing the trimmed
title and that the operation never panics on any Unicode input. -/
theorem claim4_byte_truncation :
    euroTitle.length = 67 ∧ rustTrim euroTitle = euroTitle ∧
    App.add_task App.new euroTitle = none := by
  refine ⟨by decide, by decide, by rfl⟩

/-- Claim C3, as stated, is false: `add_subtask` increments `next_task_id`
before resolving the selection path, so a resolution failure — here the
fresh app, whose empty forest cannot resolve any selection — returns `false`
having changed the id counter from 1 to 2. -/
theorem claim3_counterexample :
    App.new.next_task_id = 1 ∧
    App.add_subtask App.new ['x'] =
      some ({ App.new with next_task_id := 2 }, false) := by
  exact ⟨rfl, rfl⟩

/-- Claim C3, amended: on an empty-after-trimming title or a selection path
of length ≥ 4, `add_subtask` returns `false` with the whole state unchanged;
on a path-resolution failure it returns `false` with the forest and the
selection unchanged but `next_task_id` already incremented. -/
theorem claim3_add_subtask_failures (a : App) (title : List Char) :
    (rustTrim title = [] → a.add_subtask title = some (a, false)) ∧
    (4 ≤ a.selected_path.length → a.add_subtask title = some (a, false)) ∧
    (∀ limited, rustTrim title ≠ [] → a.selected_path.length < 4 →
      limitTitle (rustTrim title) = some limited →
      a.get_task_at_path a.selected_path = none →
      a.add_subtask title =
        some ({ a with next_task_id := a.next_task_id + 1 }, false)) := by
  refine ⟨fun h => ?_, fun h => ?_, fun limited h1 h2 h3 h4 => ?_⟩
  · rw [App.add_subtask, if_pos (by simp [h])]
  · by_cases hemp : rustTrim title = []
    · rw [App.add_subtask, if_pos (by simp [hemp])]
    · rw [App.add_subtask, if_neg (by simp [hemp]), if_pos h]
  · rw [App.add_subtask, if_neg (by simp [h1]), if_neg (by omega), h3]
    have hnone : App.modifyAtPath { a with next_task_id := a.next_task_id + 1 }
        a.selected_path
        (fun t => { t with subtasks :=
          t.subtasks ++ [Task.mkNew a.next_task_id limited] }) = none := by
      apply modifyAtPath_none
      exact h4
    simp only [hnone]

/-- Witness for `claim3_add_subtask_failures` at the fresh app: the stale
(empty-forest) selection makes insertion fail while the id counter moves
from 1 to 2. -/
theorem claim3_add_subtask_failures_witness :
    App.add_subtask App.new ['x'] = some ({ App.new with next_task_id := 2 }, false) := by
  exact (claim3_add_subtask_failures App.new ['x']).2.2 ['x']
    (by decide) (by decide) rfl rfl

/-- Claim C5, as stated, is false at its success half: with a resolvable
selection path of exactly length 3 and a non-empty trimmed title of 67 euro
signs, `add_subtask` panics on the 200-byte slice (modelled as `none`)
instead of succeeding. -/
theorem claim5_counterexample :
    appChain3.selected_path.length = 3 ∧
    (App.get_task_at_path appChain3 appChain3.selected_path).isSome = true ∧
    rustTrim euroTitle ≠ [] ∧
    App.add_subtask appChain3 euroTitle = none := by
  refine ⟨rfl, rfl, by decide, by rfl⟩

/-- Claim C5, amended: insertion with a selection path of length ≥ 4 always
returns `false` and leaves the state unchanged, and with a resolvable path of
exactly length 3 and a non-empty trimmed title whose 200-byte truncation
does not panic it succeeds, appending a child carrying the fresh id to the
resolved node — the depth boundary is at exactly 4. -/
theorem claim5_depth_boundary (a : App) (title : List Char) :
    (4 ≤ a.selected_path.length → a.add_subtask title = some (a, false)) ∧
    (∀ parent limited, a.selected_path.length = 3 → rustTrim title ≠ [] →
      limitTitle (rustTrim title) = some limited →
      a.get_task_at_path a.selected_path = some parent →
      ∃ ts, a.add_subtask title =
          some ({ a with next_task_id := a.next_task_id + 1, tasks := ts }, true) ∧
        App.get_task_at_path { a with tasks := ts } a.selected_path =
          some { parent with subtasks :=
            parent.subtasks ++ [Task.mkNew a.next_task_id limited] }) := by
  constructor
  · intro h
    by_cases hemp : rustTrim title = []
    · rw [App.add_subtask, if_pos (by simp [hemp])]
    · rw [App.add_subtask, if_neg (by simp [hemp]), if_pos h]
  · intro parent limited hlen hne hlim hres
    have hres2 : App.get_task_at_path { a with next_task_id := a.next_task_id + 1 }
        a.selected_path = some parent := hres
    obtain ⟨ts, hmod, hget⟩ := modifyAtPath_spec
      { a with next_task_id := a.next_task_id + 1 } a.selected_path
      (fun t => { t with subtasks :=
        t.subtasks ++ [Task.mkNew a.next_task_id limited] }) parent hres2
    refine ⟨ts, ?_, ?_⟩
    · rw [App.add_subtask, if_neg (by simp [hne]), if_neg (by omega), hlim]
      simp only [hmod]
    · exact hget

/-- Witness for `claim5_depth_boundary` on the depth-3 chain: inserting a
plain ASCII title at the depth-3 node succeeds and appends the child with
the fresh id 5. -/
theorem claim5_depth_boundary_witness :
    App.add_subtask appChain3 ['x'] =
      some ({ appChain3 with
        next_task_id := 6
        tasks := [Task.mk 1 ['a'] false [Task.mk 2 ['b'] false [Task.mk 3 ['c'] false
          [Task.mk 4 ['d'] false [Task.mkNew 5 ['x']]]]]] }, true) := by
  have h := (claim5_depth_boundary appChain3 ['x']).2 (Task.mk 4 ['d'] false []) ['x']
    rfl (by decide) rfl rfl
  obtain ⟨ts, h1, -⟩ := h
  rfl

theorem validate_selected_index_tasks (a : App) :
    (App.validate_selected_index a).tasks = a.tasks := by
  rw [App.validate_selected_index]
  split
  · rfl
  · split <;> rfl

theorem validate_selected_index_next (a : App) :
    (App.validate_selected_index a).next_task_id = a.next_task_id := by
  rw [App.validate_selected_index]
  split
  · rfl
  · split <;> rfl

theorem le_maxRootId (ts : List Task) (t : Task) (ht : t ∈ ts) :
    t.id ≤ maxRootId ts := by
  induction ts with
  | nil => cases ht
  | cons x ts ih =>
    simp only [maxRootId, List.foldr_cons] at ih ⊢
    rcases List.mem_cons.mp ht with rfl | h
    · exact Nat.le_max_left _ _
    · exact Nat.le_trans (ih h) (Nat.le_max_right _ _)

/-- Claim C6, as stated, is false: `load_state` validates the stored next-id
only against 0, so a snapshot whose stored next-id 3 is positive but not
greater than the id 5 present in the tree is taken verbatim — no self-heal
happens. -/
theorem claim6_counterexample :
    (App.load_state_from App.new savedStale).next_task_id = 3 ∧
    (App.load_state_from App.new savedStale).tasks.map Task.id = [5] := by
  exact ⟨rfl, rfl⟩

/-- Claim C6, amended: after a successful load the tasks are the snapshot's
tasks, a nonzero stored next-id is taken verbatim (even when some tree id is
at least as large), and only a stored 0 triggers the self-heal
`max 1 (max root id + 1)` — which exceeds every root-task id (descendant
ids are not scanned). -/
theorem claim6_next_id (a : App) (st : SavedState) :
    (a.load_state_from st).tasks = st.tasks ∧
    (st.next_task_id ≠ 0 →
      (a.load_state_from st).next_task_id = st.next_task_id) ∧
    (st.next_task_id = 0 →
      ∀ t ∈ (a.load_state_from st).tasks,
        t.id < (a.load_state_from st).next_task_id) := by
  refine ⟨?_, fun h => ?_, fun h t ht => ?_⟩
  · rw [App.load_state_from, validate_selected_index_tasks]
    split <;> rfl
  · rw [App.load_state_from, validate_selected_index_next, if_neg h]
  · rw [App.load_state_from, validate_selected_index_tasks] at ht
    rw [App.load_state_from, validate_selected_index_next, if_pos h]
    have hle : t.id ≤ maxRootId st.tasks := by
      apply le_maxRootId
      revert ht
      split <;> exact fun ht => ht
    show t.id < max 1 (maxRootId st.tasks + 1)
    have := Nat.le_max_right 1 (maxRootId st.tasks + 1)
    omega

/-- Witness for `claim6_next_id`: the stale snapshot's stored 3 is kept
verbatim, and zeroing the stored next-id self-heals to 6 = (max root id 5) + 1. -/
theorem claim6_next_id_witness :
    (App.load_state_from App.new savedStale).next_task_id = 3 ∧
    (App.load_state_from App.new
      { savedStale with next_task_id := 0 }).next_task_id = 6 := by
  constructor
  · exact (claim6_next_id App.new savedStale).2.1 (by decide)
  · have h := (claim6_next_id App.new { savedStale with next_task_id := 0 }).2.2 rfl
    rfl

theorem validate_of_empty (a : App) (h : a.tasks = []) :
    a.validate_selected_index = { a with selected_index := 0, selected_path := [] } := by
  rw [App.validate_selected_index, if_pos (by simp [h])]

theorem validate_of_ge (a : App) (h1 : a.tasks ≠ [])
    (h2 : a.tasks.length ≤ a.selected_index) :
    a.validate_selected_index =
      { a with selected_index := a.tasks.length - 1, selected_path := [] } := by
  rw [App.validate_selected_index, if_neg (by simpa [List.isEmpty_iff] using h1),
    if_pos h2]

theorem validate_of_lt (a : App) (h2 : a.selected_index < a.tasks.length) :
    a.validate_selected_index = a := by
  have h1 : a.tasks ≠ [] := by
    intro he
    rw [he] at h2
    simp at h2
  rw [App.validate_selected_index, if_neg (by simpa [List.isEmpty_iff] using h1),
    if_neg (by omega)]

/-- Full case analysis of `delete_selected_task` on valid selections: the
shapes of the repaired selection. -/
theorem delete_selected_task_cases (a : App) :
    (a.selected_path = [] → a.tasks = [] → a.delete_selected_task = some a) ∧
    (a.selected_path = [] → a.tasks.length = 1 → a.selected_index = 0 →
      a.delete_selected_task =
        some { a with tasks := [], selected_index := 0, selected_path := [] }) ∧
    (a.selected_path = [] → a.selected_index + 1 < a.tasks.length →
      a.delete_selected_task =
        some { a with tasks := a.tasks.eraseIdx a.selected_index }) ∧
    (a.selected_path = [] → 2 ≤ a.tasks.length →
      a.selected_index = a.tasks.length - 1 →
      a.delete_selected_task =
        some { a with
          tasks := a.tasks.eraseIdx a.selected_index
          selected_index := a.tasks.length - 2
          selected_path := [] }) ∧
    (∀ p q parent, a.selected_path = p ++ [q] →
      a.get_task_at_path p = some parent → q < parent.subtasks.length →
      ∃ ts, a.modifyAtPath p
          (fun t => { t with subtasks := t.subtasks.eraseIdx q }) = some ts ∧
        (q + 1 < parent.subtasks.length →
          a.delete_selected_task = some { a with tasks := ts, selected_path := p }) ∧
        (q + 1 = parent.subtasks.length → 2 ≤ parent.subtasks.length →
          a.delete_selected_task = some { a with
            tasks := ts
            selected_path := p ++ [parent.subtasks.length - 2] }) ∧
        (parent.subtasks.length = 1 →
          a.delete_selected_task = some { a with tasks := ts, selected_path := p })) := by
  refine ⟨fun hp he => ?_, fun hp hlen hidx => ?_, fun hp hlt => ?_,
    fun hp hlen hidx => ?_, fun p q parent hp hres hq => ?_⟩
  · rw [App.delete_selected_task, if_pos hp, if_pos (by simp [he])]
  · have hne : ¬ a.tasks.isEmpty = true := by
      simp only [List.isEmpty_iff]
      intro h
      rw [h] at hlen
      simp at hlen
    have hnil : a.tasks.eraseIdx a.selected_index = [] := by
      rw [List.eraseIdx_eq_nil]
      right
      exact ⟨hlen, hidx⟩
    rw [App.delete_selected_task, if_pos hp, if_neg hne, if_pos (by omega),
      validate_of_empty _ hnil]
    simp [hp, hnil]
  · have hne : ¬ a.tasks.isEmpty = true := by
      simp only [List.isEmpty_iff]
      intro h
      rw [h] at hlt
      simp at hlt
    have hlenE : (a.tasks.eraseIdx a.selected_index).length = a.tasks.length - 1 :=
      List.length_eraseIdx_of_lt (by omega)
    rw [App.delete_selected_task, if_pos hp, if_neg hne, if_pos (by omega),
      validate_of_lt _ (by
        show a.selected_index < (a.tasks.eraseIdx a.selected_index).length
        omega)]
  · have hne : ¬ a.tasks.isEmpty = true := by
      simp only [List.isEmpty_iff]
      intro h
      rw [h] at hlen
      simp at hlen
    have hlenE : (a.tasks.eraseIdx a.selected_index).length = a.tasks.length - 1 :=
      List.length_eraseIdx_of_lt (by omega)
    rw [App.delete_selected_task, if_pos hp, if_neg hne, if_pos (by omega),
      validate_of_ge _ (by
        show a.tasks.eraseIdx a.selected_index ≠ []
        intro h
        rw [h] at hlenE
        simp at hlenE
        omega)
      (by
        show (a.tasks.eraseIdx a.selected_index).length ≤ a.selected_index
        omega)]
    have h3 : (a.tasks.eraseIdx a.selected_index).length - 1 = a.tasks.length - 2 := by
      omega
    simp only [h3]
  · obtain ⟨ts, hmod, hget⟩ := modifyAtPath_spec a p
      (fun t => { t with subtasks := t.subtasks.eraseIdx q }) parent hres
    refine ⟨ts, hmod, ?_, ?_, ?_⟩
    · intro hlater
      rw [App.delete_selected_task, if_neg (by simp [hp]), hp,
        List.getLast?_concat, List.dropLast_concat]
      simp only [hres, if_pos hq, hmod, Option.getD_some]
      rw [if_neg (by omega), if_neg (by omega)]
    · intro hlast hlen
      rw [App.delete_selected_task, if_neg (by simp [hp]), hp,
        List.getLast?_concat, List.dropLast_concat]
      simp only [hres, if_pos hq, hmod, Option.getD_some]
      rw [if_pos (by omega)]
      have h2 : parent.subtasks.length - 1 - 1 = parent.subtasks.length - 2 := by
        omega
      rw [h2]
    · intro hone
      rw [App.delete_selected_task, if_neg (by simp [hp]), hp,
        List.getLast?_concat, List.dropLast_concat]
      simp only [hres, if_pos hq, hmod, Option.getD_some]
      rw [if_neg (by omega), if_pos (by omega)]



/-- Claim C1, as stated, is false in the later-siblings case for non-root
nodes: deleting the first of two subtasks pops the selection path to the
parent (`[]`) instead of keeping the same final index `[0]` (which the next
sibling now occupies). -/
theorem claim1_counterexample :
    App.delete_selected_task appTwoSubs =
      some { appTwoSubs with
        tasks := [Task.mk 1 ['a'] false [Task.mk 3 ['c'] false []]]
        selected_path := [] } ∧
    ([] : List Nat) ≠ [0] := by
  exact ⟨rfl, by decide⟩

/-- Claim C1, amended: after `delete_selected_task` removes a valid selected
node, (i) deleting the last remaining root task resets selection to
(0, []); (ii) deleting a root task with later siblings keeps the same index,
now occupied by the next sibling; (iii) deleting the last root task while
siblings remain moves the index to the new last sibling; for a non-root
node, (iv) if later siblings exist the selection moves up to the parent
(this is where the original claim fails), (v) if the removed node was the
last sibling and siblings remain the path's final index becomes the new
last sibling's, and (vi) if no siblings remain the selection moves up to
the parent. -/
theorem claim1_delete_repair (a : App) :
    (a.selected_path = [] → a.tasks.length = 1 → a.selected_index = 0 →
      a.delete_selected_task =
        some { a with tasks := [], selected_index := 0, selected_path := [] }) ∧
    (a.selected_path = [] → a.selected_index + 1 < a.tasks.length →
      a.delete_selected_task =
        some { a with tasks := a.tasks.eraseIdx a.selected_index } ∧
      (a.tasks.eraseIdx a.selected_index)[a.selected_index]? =
        a.tasks[a.selected_index + 1]?) ∧
    (a.selected_path = [] → 2 ≤ a.tasks.length →
      a.selected_index = a.tasks.length - 1 →
      a.delete_selected_task =
        some { a with
          tasks := a.tasks.eraseIdx a.selected_index
          selected_index := a.tasks.length - 2
          selected_path := [] }) ∧
    (∀ p q parent, a.selected_path = p ++ [q] →
      a.get_task_at_path p = some parent → q < parent.subtasks.length →
      ∃ ts, a.modifyAtPath p
          (fun t => { t with subtasks := t.subtasks.eraseIdx q }) = some ts ∧
        (q + 1 < parent.subtasks.length →
          a.delete_selected_task = some { a with tasks := ts, selected_path := p }) ∧
        (q + 1 = parent.subtasks.length → 2 ≤ parent.subtasks.length →
          a.delete_selected_task = some { a with
            tasks := ts
            selected_path := p ++ [parent.subtasks.length - 2] }) ∧
        (parent.subtasks.length = 1 →
          a.delete_selected_task = some { a with tasks := ts, selected_path := p })) := by
  obtain ⟨-, h2, h3, h4, h5⟩ := delete_selected_task_cases a
  refine ⟨h2, fun hp hlt => ⟨h3 hp hlt, ?_⟩, h4, h5⟩
  exact List.getElem?_eraseIdx_of_ge a.tasks a.selected_index a.selected_index
    (Nat.le_refl _)

/-- Witness for `claim1_delete_repair`: deleting the last of the two
subtasks of `appTwoSubs`'s root (selection `[1]`) moves the selection's
final index to the new last sibling, `[0]`. -/
theorem claim1_delete_repair_witness :
    App.delete_selected_task { appTwoSubs with selected_path := [1] } =
      some { appTwoSubs with
        tasks := [Task.mk 1 ['a'] false [Task.mk 2 ['b'] false []]]
        selected_path := [0] } := by
  have h := (claim1_delete_repair { appTwoSubs with selected_path := [1] }).2.2.2
    [] 1 (Task.mk 1 ['a'] false [Task.mk 2 ['b'] false [], Task.mk 3 ['c'] false []])
    rfl rfl (by decide)
  obtain ⟨ts, hmod, -, hlast, -⟩ := h
  have hts : ts = [Task.mk 1 ['a'] false [Task.mk 2 ['b'] false []]] := by
    have : App.modifyAtPath { appTwoSubs with selected_path := [1] } []
        (fun t => { t with subtasks := t.subtasks.eraseIdx 1 }) =
        some [Task.mk 1 ['a'] false [Task.mk 2 ['b'] false []]] := by rfl
    rw [this] at hmod
    exact (Option.some.injEq _ _).mp hmod.symm
  have := hlast rfl (by decide)
  rw [hts] at this
  exact this

/-- Membership in `pathsFrom` decomposed: a path starting with child index
`q` lies in the `q - i`-th subtree. -/
theorem mem_pathsFrom_cons :
    ∀ (ts : List Task) (i q : Nat) (rest : List Nat),
      (q :: rest) ∈ pathsFrom i ts ↔
      i ≤ q ∧ ∃ root, ts[q - i]? = some root ∧ rest ∈ nodePaths root := by
  intro ts
  induction ts with
  | nil => intro i q rest; rw [pathsFrom]; simp
  | cons t ts ih =>
    intro i q rest
    rw [pathsFrom, List.mem_append, List.mem_map]
    constructor
    · rintro (⟨p, hp, heq⟩ | h)
      · obtain ⟨rfl, rfl⟩ : i = q ∧ p = rest := by cases heq; exact ⟨rfl, rfl⟩
        exact ⟨Nat.le_refl _, t, by simp, hp⟩
      · obtain ⟨hle, root, hroot, hmem⟩ := (ih (i + 1) q rest).mp h
        refine ⟨by omega, root, ?_, hmem⟩
        obtain ⟨j, hj⟩ : ∃ j, q - i = j + 1 := ⟨q - i - 1, by omega⟩
        rw [hj, List.getElem?_cons_succ, show j = q - (i + 1) by omega]
        exact hroot
    · rintro ⟨hle, root, hroot, hmem⟩
      by_cases hqi : q = i
      · subst hqi
        left
        rw [Nat.sub_self, List.getElem?_cons_zero, Option.some.injEq] at hroot
        subst hroot
        exact ⟨rest, hmem, rfl⟩
      · right
        apply (ih (i + 1) q rest).mpr
        refine ⟨by omega, root, ?_, hmem⟩
        obtain ⟨j, hj⟩ : ∃ j, q - i = j + 1 := ⟨q - i - 1, by omega⟩
        rw [hj, List.getElem?_cons_succ] at hroot
        rw [show q - (i + 1) = j by omega]
        exact hroot

/-- Membership in `selsFrom` decomposed likewise. -/
theorem mem_selsFrom :
    ∀ (ts : List Task) (i0 i : Nat) (p : List Nat),
      (i, p) ∈ selsFrom i0 ts ↔
      i0 ≤ i ∧ ∃ root, ts[i - i0]? = some root ∧ p ∈ nodePaths root := by
  intro ts
  induction ts with
  | nil => intro i0 i p; rw [selsFrom]; simp
  | cons t ts ih =>
    intro i0 i p
    rw [selsFrom, List.mem_append, List.mem_map]
    constructor
    · rintro (⟨p0, hp0, heq⟩ | h)
      · obtain ⟨rfl, rfl⟩ : i0 = i ∧ p0 = p := by cases heq; exact ⟨rfl, rfl⟩
        exact ⟨Nat.le_refl _, t, by simp, hp0⟩
      · obtain ⟨hle, root, hroot, hmem⟩ := (ih (i0 + 1) i p).mp h
        refine ⟨by omega, root, ?_, hmem⟩
        obtain ⟨j, hj⟩ : ∃ j, i - i0 = j + 1 := ⟨i - i0 - 1, by omega⟩
        rw [hj, List.getElem?_cons_succ, show j = i - (i0 + 1) by omega]
        exact hroot
    · rintro ⟨hle, root, hroot, hmem⟩
      by_cases hqi : i = i0
      · subst hqi
        left
        rw [Nat.sub_self, List.getElem?_cons_zero, Option.some.injEq] at hroot
        subst hroot
        exact ⟨p, hmem, rfl⟩
      · right
        apply (ih (i0 + 1) i p).mpr
        refine ⟨by omega, root, ?_, hmem⟩
        obtain ⟨j, hj⟩ : ∃ j, i - i0 = j + 1 := ⟨i - i0 - 1, by omega⟩
        rw [hj, List.getElem?_cons_succ] at hroot
        rw [show i - (i0 + 1) = j by omega]
        exact hroot

/-- A path is in the pre-order enumeration of a subtree exactly when it
resolves in it. -/
theorem mem_nodePaths_iff :
    ∀ (p : List Nat) (t : Task),
      p ∈ nodePaths t ↔ (App.getAtPathIn t p).isSome = true := by
  intro p
  induction p with
  | nil => intro t; rw [nodePaths_def]; simp [App.getAtPathIn]
  | cons q rest ih =>
    intro t
    rw [nodePaths_def]
    constructor
    · intro h
      rcases List.mem_cons.mp h with h | h
      · cases h
      · obtain ⟨-, root, hroot, hmem⟩ :=
          (mem_pathsFrom_cons t.subtasks 0 q rest).mp h
        rw [Nat.sub_zero] at hroot
        simp only [App.getAtPathIn, hroot]
        exact (ih root).mp hmem
    · intro h
      cases hroot : t.subtasks[q]? with
      | none => simp [App.getAtPathIn, hroot] at h
      | some root =>
        simp only [App.getAtPathIn, hroot] at h
        apply List.mem_cons.mpr
        right
        apply (mem_pathsFrom_cons t.subtasks 0 q rest).mpr
        exact ⟨Nat.zero_le _, root, by simpa using hroot, (ih root).mpr h⟩

/-- The path walk splits over path concatenation. -/
theorem getAtPathIn_append :
    ∀ (p rest : List Nat) (t : Task),
      App.getAtPathIn t (p ++ rest) =
        (App.getAtPathIn t p).bind (fun x => App.getAtPathIn x rest) := by
  intro p
  induction p with
  | nil => intro rest t; simp [App.getAtPathIn]
  | cons i p ih =>
    intro rest t
    cases hsub : t.subtasks[i]? with
    | none => simp [App.getAtPathIn, hsub]
    | some s => simp [App.getAtPathIn, hsub, ih]

/-- App-level: resolution splits over path concatenation. -/
theorem get_task_at_path_append (a : App) (p rest : List Nat) :
    a.get_task_at_path (p ++ rest) =
      (a.get_task_at_path p).bind (fun x => App.getAtPathIn x rest) := by
  cases h : a.tasks[a.selected_index]? <;>
    simp [App.get_task_at_path, h, getAtPathIn_append]

/-- Resolution of a selection characterized through the root lookup. -/
theorem get_task_at_path_isSome_iff (a : App) (p : List Nat) :
    (a.get_task_at_path p).isSome = true ↔
    ∃ root, a.tasks[a.selected_index]? = some root ∧
      (App.getAtPathIn root p).isSome = true := by
  cases h : a.tasks[a.selected_index]? <;> simp [App.get_task_at_path, h]

/-- A selection resolves exactly when it occurs in the pre-order
enumeration of all selections. -/
theorem resolves_iff_mem (ts : List Task) (i : Nat) (p : List Nat) :
    (∃ root, ts[i]? = some root ∧ (App.getAtPathIn root p).isSome = true) ↔
    (i, p) ∈ allSels ts := by
  rw [allSels, mem_selsFrom ts 0 i p]
  simp [mem_nodePaths_iff]



theorem selOk_add_task (a : App) (h : a.selOk) (title : List Char) (r : App × Bool)
    (hr : a.add_task title = some r) : r.1.selOk := by
  rw [App.add_task] at hr
  by_cases hemp : (rustTrim title).isEmpty
  · rw [if_pos hemp, Option.some.injEq] at hr
    subst hr
    exact h
  · rw [if_neg hemp] at hr
    cases hlim : limitTitle (rustTrim title) with
    | none => rw [hlim] at hr; simp at hr
    | some limited =>
      rw [hlim] at hr
      simp only [Option.some.injEq] at hr
      subst hr
      rcases h with ⟨he, hi0, hp0⟩ | hres
      · have hval : App.validate_selected_index
            { a with
              tasks := a.tasks ++ [Task.mkNew a.next_task_id limited]
              next_task_id := a.next_task_id + 1 } =
            { a with
              tasks := a.tasks ++ [Task.mkNew a.next_task_id limited]
              next_task_id := a.next_task_id + 1 } := by
          apply validate_of_lt
          show a.selected_index < (a.tasks ++ [Task.mkNew a.next_task_id limited]).length
          rw [he, hi0]
          simp
        show (App.validate_selected_index _).selOk
        rw [hval]
        refine Or.inr ?_
        apply (get_task_at_path_isSome_iff _ _).mpr
        refine ⟨Task.mkNew a.next_task_id limited, ?_, ?_⟩
        · show (a.tasks ++ [Task.mkNew a.next_task_id limited])[a.selected_index]? = _
          rw [he, hi0]
          simp
        · show (App.getAtPathIn _ a.selected_path).isSome = true
          rw [hp0]
          rfl
      · obtain ⟨root, hroot, hwalk⟩ := (get_task_at_path_isSome_iff a _).mp hres
        have hidx : a.selected_index < a.tasks.length :=
          (List.getElem?_eq_some_iff.mp hroot).1
        have hval : App.validate_selected_index
            { a with
              tasks := a.tasks ++ [Task.mkNew a.next_task_id limited]
              next_task_id := a.next_task_id + 1 } =
            { a with
              tasks := a.tasks ++ [Task.mkNew a.next_task_id limited]
              next_task_id := a.next_task_id + 1 } := by
          apply validate_of_lt
          show a.selected_index < (a.tasks ++ [Task.mkNew a.next_task_id limited]).length
          rw [List.length_append]
          omega
        show (App.validate_selected_index _).selOk
        rw [hval]
        refine Or.inr ?_
        apply (get_task_at_path_isSome_iff _ _).mpr
        refine ⟨root, ?_, hwalk⟩
        show (a.tasks ++ [Task.mkNew a.next_task_id limited])[a.selected_index]? = some root
        rw [List.getElem?_append_left hidx]
        exact hroot

theorem selOk_add_subtask (a : App) (h : a.selOk) (title : List Char) (r : App × Bool)
    (hr : a.add_subtask title = some r) : r.1.selOk := by
  rw [App.add_subtask] at hr
  by_cases hemp : (rustTrim title).isEmpty
  · rw [if_pos hemp, Option.some.injEq] at hr
    subst hr
    exact h
  · rw [if_neg hemp] at hr
    by_cases hdepth : a.selected_path.length ≥ 4
    · rw [if_pos hdepth, Option.some.injEq] at hr
      subst hr
      exact h
    · rw [if_neg hdepth] at hr
      cases hlim : limitTitle (rustTrim title) with
      | none => rw [hlim] at hr; simp at hr
      | some limited =>
        rw [hlim] at hr
        cases hres : a.get_task_at_path a.selected_path with
        | none =>
          have hnone : App.modifyAtPath
              { a with next_task_id := a.next_task_id + 1 } a.selected_path
              (fun t => { t with subtasks :=
                t.subtasks ++ [Task.mkNew a.next_task_id limited] }) = none :=
            modifyAtPath_none _ _ _ hres
          simp only [hnone, Option.some.injEq] at hr
          subst hr
          exact h
        | some parent =>
          obtain ⟨ts, hmod, hget⟩ := modifyAtPath_spec
            { a with next_task_id := a.next_task_id + 1 } a.selected_path
            (fun t => { t with subtasks :=
              t.subtasks ++ [Task.mkNew a.next_task_id limited] }) parent hres
          simp only [hmod, Option.some.injEq] at hr
          subst hr
          refine Or.inr ?_
          show (App.get_task_at_path
            { a with next_task_id := a.next_task_id + 1, tasks := ts }
            a.selected_path).isSome = true
          rw [show (App.get_task_at_path
              { a with next_task_id := a.next_task_id + 1, tasks := ts }
              a.selected_path) =
            (App.get_task_at_path
              { { a with next_task_id := a.next_task_id + 1 } with tasks := ts }
              a.selected_path) from rfl, hget]
          rfl

theorem selOk_toggle (a : App) (h : a.selOk) : a.toggle_task_completion.selOk := by
  rw [App.toggle_task_completion]
  cases hres : a.get_task_at_path a.selected_path with
  | none =>
    rw [modifyAtPath_none a _ _ hres]
    exact h
  | some parent =>
    obtain ⟨ts, hmod, hget⟩ := modifyAtPath_spec a a.selected_path
      (fun t => setCompletedAll (!t.completed) t) parent hres
    rw [hmod]
    refine Or.inr ?_
    show (App.get_task_at_path { a with tasks := ts } a.selected_path).isSome = true
    rw [hget]
    rfl

theorem selOk_clear (a : App) : a.clear_all_tasks.selOk :=
  Or.inl ⟨rfl, rfl, rfl⟩



theorem selOk_delete (a : App) (h : a.selOk) (r : App)
    (hr : a.delete_selected_task = some r) : r.selOk := by
  obtain ⟨h0, h1, h2, h3, h4⟩ := delete_selected_task_cases a
  rcases h with ⟨he, hi0, hp0⟩ | hres
  · rw [h0 hp0 he, Option.some.injEq] at hr
    subst hr
    exact Or.inl ⟨he, hi0, hp0⟩
  · obtain ⟨root, hroot, hwalk⟩ := (get_task_at_path_isSome_iff a _).mp hres
    have hidx : a.selected_index < a.tasks.length :=
      (List.getElem?_eq_some_iff.mp hroot).1
    cases hp : a.selected_path with
    | nil =>
      by_cases hlen1 : a.tasks.length = 1
      · rw [h1 hp hlen1 (by omega), Option.some.injEq] at hr
        subst hr
        exact Or.inl ⟨rfl, rfl, rfl⟩
      · have hlenE : (a.tasks.eraseIdx a.selected_index).length =
            a.tasks.length - 1 := List.length_eraseIdx_of_lt hidx
        by_cases hlast : a.selected_index + 1 < a.tasks.length
        · rw [h2 hp hlast, Option.some.injEq] at hr
          subst hr
          refine Or.inr ?_
          apply (get_task_at_path_isSome_iff _ _).mpr
          have hlt : a.selected_index < (a.tasks.eraseIdx a.selected_index).length := by
            omega
          refine ⟨(a.tasks.eraseIdx a.selected_index).get ⟨a.selected_index, hlt⟩, ?_, ?_⟩
          · show (a.tasks.eraseIdx a.selected_index)[a.selected_index]? = _
            simp [List.getElem?_eq_getElem hlt]
          · show (App.getAtPathIn _ a.selected_path).isSome = true
            rw [hp]
            rfl
        · rw [h3 hp (by omega) (by omega), Option.some.injEq] at hr
          subst hr
          refine Or.inr ?_
          apply (get_task_at_path_isSome_iff _ _).mpr
          have hlt : a.tasks.length - 2 < (a.tasks.eraseIdx a.selected_index).length := by
            omega
          refine ⟨(a.tasks.eraseIdx a.selected_index).get ⟨a.tasks.length - 2, hlt⟩, ?_, ?_⟩
          · show (a.tasks.eraseIdx a.selected_index)[a.tasks.length - 2]? = _
            simp [List.getElem?_eq_getElem hlt]
          · rfl
    | cons q0 rest0 =>
      have hne : a.selected_path ≠ [] := by rw [hp]; simp
      obtain ⟨p, q, hpq⟩ : ∃ p q, a.selected_path = p ++ [q] :=
        ⟨a.selected_path.dropLast, a.selected_path.getLast hne,
          (List.dropLast_concat_getLast hne).symm⟩
      rw [hpq, getAtPathIn_append] at hwalk
      cases hpar : App.getAtPathIn root p with
      | none => rw [hpar] at hwalk; simp at hwalk
      | some parent =>
        rw [hpar] at hwalk
        simp only [Option.some_bind] at hwalk
        have hq : q < parent.subtasks.length := by
          cases hsub : parent.subtasks[q]? with
          | none => simp [App.getAtPathIn, hsub] at hwalk
          | some s => exact (List.getElem?_eq_some_iff.mp hsub).1
        have hrespar : a.get_task_at_path p = some parent := by
          simp only [App.get_task_at_path, hroot]
          exact hpar
        obtain ⟨ts, hmod, hc1, hc2, hc3⟩ := h4 p q parent hpq hrespar hq
        obtain ⟨ts2, hmod2, hget2⟩ := modifyAtPath_spec a p
          (fun t => { t with subtasks := t.subtasks.eraseIdx q }) parent hrespar
        rw [hmod] at hmod2
        obtain rfl : ts = ts2 := (Option.some.injEq _ _).mp hmod2
        have hlenE : (parent.subtasks.eraseIdx q).length =
            parent.subtasks.length - 1 := List.length_eraseIdx_of_lt hq
        by_cases hcase1 : q + 1 < parent.subtasks.length
        · rw [hc1 hcase1, Option.some.injEq] at hr
          subst hr
          refine Or.inr ?_
          show (App.get_task_at_path { a with tasks := ts, selected_path := p }
            p).isSome = true
          rw [show App.get_task_at_path { a with tasks := ts, selected_path := p } p =
            App.get_task_at_path { a with tasks := ts } p from rfl, hget2]
          rfl
        · by_cases hone : parent.subtasks.length = 1
          · rw [hc3 hone, Option.some.injEq] at hr
            subst hr
            refine Or.inr ?_
            show (App.get_task_at_path { a with tasks := ts, selected_path := p }
              p).isSome = true
            rw [show App.get_task_at_path { a with tasks := ts, selected_path := p } p =
              App.get_task_at_path { a with tasks := ts } p from rfl, hget2]
            rfl
          · rw [hc2 (by omega) (by omega), Option.some.injEq] at hr
            subst hr
            refine Or.inr ?_
            show (App.get_task_at_path
              { a with tasks := ts, selected_path := p ++ [parent.subtasks.length - 2] }
              (p ++ [parent.subtasks.length - 2])).isSome = true
            rw [show App.get_task_at_path
                { a with tasks := ts, selected_path := p ++ [parent.subtasks.length - 2] }
                (p ++ [parent.subtasks.length - 2]) =
              App.get_task_at_path { a with tasks := ts }
                (p ++ [parent.subtasks.length - 2]) from rfl]
            rw [get_task_at_path_append, hget2]
            simp only [Option.some_bind]
            show (App.getAtPathIn
              { parent with subtasks := parent.subtasks.eraseIdx q }
              [parent.subtasks.length - 2]).isSome = true
            have hm : parent.subtasks.length - 2 <
                (parent.subtasks.eraseIdx q).length := by omega
            cases hsub : (parent.subtasks.eraseIdx q)[parent.subtasks.length - 2]? with
            | none =>
              rw [List.getElem?_eq_getElem hm] at hsub
              cases hsub
            | some s => simp [App.getAtPathIn, hsub]



theorem selOk_of_allSels_getElem (a : App) (k : Nat) (i : Nat) (p : List Nat)
    (hs : (allSels a.tasks)[k]? = some (i, p)) :
    App.selOk { a with selected_index := i, selected_path := p } := by
  refine Or.inr ?_
  have hmem : (i, p) ∈ allSels a.tasks := List.getElem?_mem hs
  obtain ⟨root, hroot, hwalk⟩ := (resolves_iff_mem a.tasks i p).mpr hmem
  apply (get_task_at_path_isSome_iff _ _).mpr
  exact ⟨root, hroot, hwalk⟩

theorem selOk_up (a : App) (h : a.selOk) (r : App)
    (hr : a.move_selection_up = some r) : r.selOk := by
  rcases h with ⟨he, hi0, hp0⟩ | hres
  · rw [App.move_selection_up, he, hi0, hp0] at hr
    rw [show get_flat_index [] 0 [] = some 0 from rfl] at hr
    simp only [Option.bind_eq_bind, Option.some_bind, gt_iff_lt, Nat.lt_irrefl,
      if_false, Option.pure_def, Option.some.injEq] at hr
    subst hr
    exact Or.inl ⟨he, hi0, hp0⟩
  · obtain ⟨root, hroot, hwalk⟩ := (get_task_at_path_isSome_iff a _).mp hres
    have hmem : (a.selected_index, a.selected_path) ∈ allSels a.tasks :=
      (resolves_iff_mem a.tasks _ _).mp ⟨root, hroot, hwalk⟩
    obtain ⟨k, hk⟩ := List.mem_iff_getElem?.mp hmem
    have hflat := get_flat_index_of_allSels a.tasks k _ _ hk
    have hklen : k < countSum a.tasks := by
      have := (List.getElem?_eq_some_iff.mp hk).1
      rwa [allSels_length] at this
    rw [App.move_selection_up, hflat] at hr
    simp only [Option.bind_eq_bind, Option.some_bind] at hr
    by_cases hk0 : 0 < k
    · rw [if_pos hk0] at hr
      obtain ⟨s', hs'⟩ : ∃ s', (allSels a.tasks)[k - 1]? = some s' := by
        have hlt : k - 1 < (allSels a.tasks).length := by rw [allSels_length]; omega
        exact ⟨(allSels a.tasks).get ⟨k - 1, hlt⟩, by simp [List.getElem?_eq_getElem hlt]⟩
      obtain ⟨i', p'⟩ := s'
      rw [find_item_spec a.tasks (k - 1) _ hs'] at hr
      simp only [Option.pure_def, Option.some.injEq] at hr
      subst hr
      exact selOk_of_allSels_getElem a (k - 1) i' p' hs'
    · rw [if_neg hk0] at hr
      simp only [Option.pure_def, Option.some.injEq] at hr
      subst hr
      exact Or.inr hres

theorem selOk_down (a : App) (h : a.selOk) (r : App)
    (hr : a.move_selection_down = some r) : r.selOk := by
  rcases h with ⟨he, hi0, hp0⟩ | hres
  · rw [App.move_selection_down, he, hi0, hp0] at hr
    rw [show get_flat_index [] 0 [] = some 0 from rfl,
      show countSum ([] : List Task) = 0 from rfl] at hr
    simp at hr
  · obtain ⟨root, hroot, hwalk⟩ := (get_task_at_path_isSome_iff a _).mp hres
    have hmem : (a.selected_index, a.selected_path) ∈ allSels a.tasks :=
      (resolves_iff_mem a.tasks _ _).mp ⟨root, hroot, hwalk⟩
    obtain ⟨k, hk⟩ := List.mem_iff_getElem?.mp hmem
    have hflat := get_flat_index_of_allSels a.tasks k _ _ hk
    have hklen : k < countSum a.tasks := by
      have := (List.getElem?_eq_some_iff.mp hk).1
      rwa [allSels_length] at this
    rw [App.move_selection_down, hflat] at hr
    simp only [Option.bind_eq_bind, Option.some_bind] at hr
    rw [if_neg (by omega)] at hr
    by_cases hkl : k < countSum a.tasks - 1
    · rw [if_pos hkl] at hr
      obtain ⟨s', hs'⟩ : ∃ s', (allSels a.tasks)[k + 1]? = some s' := by
        have hlt : k + 1 < (allSels a.tasks).length := by rw [allSels_length]; omega
        exact ⟨(allSels a.tasks).get ⟨k + 1, hlt⟩, by simp [List.getElem?_eq_getElem hlt]⟩
      obtain ⟨i', p'⟩ := s'
      rw [find_item_spec a.tasks (k + 1) _ hs'] at hr
      simp only [Option.pure_def, Option.some.injEq] at hr
      subst hr
      exact selOk_of_allSels_getElem a (k + 1) i' p' hs'
    · rw [if_neg hkl] at hr
      simp only [Option.pure_def, Option.some.injEq] at hr
      subst hr
      exact Or.inr hres



/-- Claim C10: every task-tree mutation and navigation operation preserves
the selection invariant — afterwards the selection resolves to an existing
node, or the tree is empty and the selection is (0, []).  For the operations
that can panic (modelled as `none`) the invariant is shown for every
terminating execution. -/
theorem claim10_selection_invariant (a : App) (h : a.selOk) :
    (∀ title r, a.add_task title = some r → r.1.selOk) ∧
    (∀ title r, a.add_subtask title = some r → r.1.selOk) ∧
    a.toggle_task_completion.selOk ∧
    (∀ r, a.delete_selected_task = some r → r.selOk) ∧
    a.clear_all_tasks.selOk ∧
    (∀ r, a.move_selection_up = some r → r.selOk) ∧
    (∀ r, a.move_selection_down = some r → r.selOk) :=
  ⟨fun title r hr => selOk_add_task a h title r hr,
   fun title r hr => selOk_add_subtask a h title r hr,
   selOk_toggle a h,
   fun r hr => selOk_delete a h r hr,
   selOk_clear a,
   fun r hr => selOk_up a h r hr,
   fun r hr => selOk_down a h r hr⟩

/-- Witness for `claim10_selection_invariant` at a concrete resolving
state. -/
theorem claim10_selection_invariant_witness :
    App.selOk (App.toggle_task_completion appTwoSubs) ∧
    App.selOk (App.clear_all_tasks appTwoSubs) := by
  have h := claim10_selection_invariant appTwoSubs (Or.inr rfl)
  exact ⟨h.2.2.1, h.2.2.2.2.1⟩

end Tsk
